import Mathlib

/-!
Verification development for the firecrawl Rust core
(apps/api/sharedLibs/crawler and apps/api/sharedLibs/html-transformer).

The repository functions are shallowly embedded as executable Lean
definitions.  Behaviour provided by external crates (the url crate's
parser/joiner, the regex engine, the robotstxt matcher, the roxmltree XML
parser and the html5ever document model) is not repository code; it is
modelled as explicit function parameters (capabilities), exactly as the
spec describes them ("injected strategy interfaces").  A small concrete
instantiation of those capabilities, valid on the simple absolute URLs
used by the spec's examples, is provided for concrete test vectors.

Rust str operations (split, trim, to_lowercase, ends_with, ...) are
modelled by kernel-computable functions on the character list of a
string, so every concrete test vector evaluates by decide.
-/

namespace Firecrawl

/-! ### Character-list models of the Rust str operations -/

/-- Model of Rust str::split with a single-character separator: splitting
an empty string yields one empty piece, and every separator occurrence
starts a new piece. -/
def splitChar (sep : Char) : List Char → List (List Char)
  | [] => [[]]
  | c :: cs =>
    if c = sep then [] :: splitChar sep cs
    else
      match splitChar sep cs with
      | [] => [[c]]
      | h :: t => (c :: h) :: t

/-- Single-character split lifted to String values. -/
def chSplit (sep : Char) (s : String) : List String :=
  (splitChar sep s.data).map String.mk

/-- Model of Rust str::starts_with. -/
def chStartsWith (s p : String) : Bool := List.isPrefixOf p.data s.data

/-- Model of Rust str::ends_with. -/
def chEndsWith (s p : String) : Bool := List.isSuffixOf p.data s.data

/-- Model of Rust str::to_lowercase (on the ASCII letters the blocked
extension list and sitemap suffix checks use). -/
def chToLower (s : String) : String := ⟨s.data.map Char.toLower⟩

/-- Model of Rust str::trim. -/
def chTrim (s : String) : String :=
  ⟨((s.data.dropWhile Char.isWhitespace).reverse.dropWhile Char.isWhitespace).reverse⟩

/-- Model of Rust slice::join on strings. -/
def chIntercalate (sep : String) (xs : List String) : String :=
  ⟨List.intercalate sep.data (xs.map String.data)⟩

/-- Model of dropping the first n characters of a string. -/
def chDrop (s : String) (n : Nat) : String := ⟨s.data.drop n⟩

/-- Model of dropping the last n characters of a string (the Rust code
slices off the final character found by char_indices().last()). -/
def chDropRight (s : String) (n : Nat) : String :=
  ⟨s.data.take (s.data.length - n)⟩

/-- Decidable equality for Except values, used by concrete test vectors. -/
instance {α β : Type} [DecidableEq α] [DecidableEq β] : DecidableEq (Except α β)
  | .ok a, .ok b =>
    if h : a = b then .isTrue (congrArg _ h)
    else .isFalse (fun hh => h (Except.ok.inj hh))
  | .error a, .error b =>
    if h : a = b then .isTrue (congrArg _ h)
    else .isFalse (fun hh => h (Except.error.inj hh))
  | .ok _, .error _ => .isFalse (fun hh => Except.noConfusion hh)
  | .error _, .ok _ => .isFalse (fun hh => Except.noConfusion hh)

/-! ### URL model and external capabilities -/

/-- Model of a parsed absolute URL as produced by the external url crate:
only the components the repository code reads (scheme, host, path). -/
structure UrlM where
  scheme : String
  host : String
  path : String
deriving DecidableEq, Repr

/-- The serialization of a parsed URL, as the url crate's as_str returns it
for simple scheme://host/path URLs. -/
def UrlM.asStr (u : UrlM) : String := u.scheme ++ "://" ++ u.host ++ u.path

/-- External capabilities used by _filter_links: URL parsing and joining
(url crate), regex compilation (regex crate, a compiled regex modelled as
its is_match function), and the robots.txt matcher (robotstxt crate,
already specialized to the two FireCrawlAgent/FirecrawlAgent tokens). -/
structure Caps where
  urlParse : String → Option UrlM
  urlJoin : UrlM → String → Option UrlM
  regexBuild : String → Option (String → Bool)
  robotsAllowed : String → String → Bool

/-! ### Link admission filter (crawler/src/lib.rs) -/

/-- Embeds the file_extensions list of _is_file (crawler/src/lib.rs lines 70-95). -/
def fileExtensions : List String :=
  [".png", ".jpg", ".jpeg", ".gif", ".css", ".js", ".ico", ".svg", ".tiff",
   ".zip", ".exe", ".dmg", ".mp4", ".mp3", ".wav", ".pptx", ".xlsx", ".avi",
   ".flv", ".woff", ".ttf", ".woff2", ".webp", ".inc"]

/-- Embeds _is_file (crawler/src/lib.rs lines 69-98): the lowercased path
ends with one of the blocked extensions. -/
def _is_file (url : UrlM) : Bool :=
  fileExtensions.any (fun ext => chEndsWith (chToLower url.path) ext)

/-- Embeds _get_url_depth (crawler/src/lib.rs lines 100-102). -/
def _get_url_depth (path : String) : Nat :=
  ((chSplit '/' path).filter
    (fun x => x != "" && x != "index.php" && x != "index.html")).length

/-- Embeds the FilterLinksCall input struct (crawler/src/lib.rs lines 8-21). -/
structure FilterLinksCall where
  links : List String
  limit : Option Int
  max_depth : Nat
  base_url : String
  initial_url : String
  regex_on_full_url : Bool
  excludes : List String
  includes : List String
  allow_backward_crawling : Bool
  ignore_robots_txt : Bool
  robots_txt : String

/-- Embeds the FilterLinksResult output struct (crawler/src/lib.rs lines
23-27); the HashMap of denial reasons is modelled as an association list
read through List.lookup (later inserts are prepended, so lookup sees the
latest insert, matching HashMap::insert). -/
structure FilterLinksResult where
  links : List String
  denial_reasons : List (String × String)
deriving DecidableEq, Repr

/-- Value of usize::MAX on the 64-bit targets the crate builds for. -/
def usizeMax : Nat := 2 ^ 64 - 1

/-- Embeds the limit computation of _filter_links (crawler/src/lib.rs lines
107-109): a negative explicit limit clamps to 0, an absent limit becomes
usize::MAX. -/
def effLimit (limit : Option Int) : Nat :=
  match limit with
  | none => usizeMax
  | some x => if x < 0 then 0 else x.toNat

/-- Embeds the per-link closure of _filter_links (crawler/src/lib.rs lines
128-186): the eight checks in source order, first failure returning its
denial reason, acceptance returning none. -/
def evalLink (caps : Caps) (data : FilterLinksCall) (base_url initial_url : UrlM)
    (excludes_regex includes_regex : List (String → Bool)) (link : String) :
    Option String :=
  match caps.urlJoin base_url link with
  | none => some "URL_PARSE_ERROR"
  | some url =>
    let depth := _get_url_depth url.path
    if depth > data.max_depth then some "DEPTH_LIMIT"
    else
      let exinc_path := if data.regex_on_full_url then url.asStr else url.path
      if !excludes_regex.isEmpty && excludes_regex.any (fun regex => regex exinc_path) then
        some "EXCLUDE_PATTERN"
      else if !includes_regex.isEmpty && !includes_regex.any (fun regex => regex exinc_path) then
        some "INCLUDE_PATTERN"
      else if !data.allow_backward_crawling && !(chStartsWith url.path initial_url.path) then
        some "BACKWARD_CRAWLING"
      else if !data.ignore_robots_txt && !(caps.robotsAllowed data.robots_txt url.asStr) then
        some "ROBOTS_TXT"
      else if _is_file url then
        some "FILE_TYPE"
      else
        none

/-- Embeds the lazy filter(..).take(limit).collect() pipeline of
_filter_links (crawler/src/lib.rs lines 127-188): links are evaluated
front to back; an accepted link is collected and decrements the remaining
budget; evaluation stops (without looking at further links) once the
budget hits zero; each rejected link records its denial reason. -/
def runFilter (eval : String → Option String) : Nat → List String →
    List String × List (String × String)
  | _, [] => ([], [])
  | n, l :: ls =>
    if n = 0 then ([], [])
    else
      match eval l with
      | some r =>
        let p := runFilter eval n ls
        (p.1, (l, r) :: p.2)
      | none =>
        let p := runFilter eval (n - 1) ls
        (l :: p.1, p.2)

/-- Embeds _filter_links (crawler/src/lib.rs lines 104-194). -/
def _filter_links (caps : Caps) (data : FilterLinksCall) :
    Except String FilterLinksResult :=
  let limit := effLimit data.limit
  if limit = 0 then Except.ok ⟨[], []⟩
  else
    match caps.urlParse data.base_url with
    | none => Except.error "relative URL without a base"
    | some base_url =>
      match caps.urlParse data.initial_url with
      | none => Except.error "relative URL without a base"
      | some initial_url =>
        let excludes_regex := data.excludes.filterMap caps.regexBuild
        let includes_regex := data.includes.filterMap caps.regexBuild
        let p := runFilter
          (evalLink caps data base_url initial_url excludes_regex includes_regex)
          limit data.links
        Except.ok ⟨p.1, p.2⟩

/-- Concrete model of url crate parsing for simple absolute http/https
URLs with explicit host; other forms are left unmodelled (none).  An
absent path serializes as the root path, as the url crate normalizes. -/
def simpleParse (s : String) : Option UrlM :=
  if chStartsWith s "https://" then
    match chSplit '/' (chDrop s 8) with
    | [] => none
    | h :: t =>
      some ⟨"https", h, if t.isEmpty then "/" else "/" ++ chIntercalate "/" t⟩
  else if chStartsWith s "http://" then
    match chSplit '/' (chDrop s 7) with
    | [] => none
    | h :: t =>
      some ⟨"http", h, if t.isEmpty then "/" else "/" ++ chIntercalate "/" t⟩
  else none

/-- Concrete model of url crate joining for the reference forms the
examples use: absolute references and path-absolute references. -/
def simpleJoin (base : UrlM) (link : String) : Option UrlM :=
  if chStartsWith link "https://" || chStartsWith link "http://" then simpleParse link
  else if chStartsWith link "/" then some ⟨base.scheme, base.host, link⟩
  else none

/-- Concrete capability bundle for test vectors: the simple URL model, a
regex model in which the match-all pattern compiles to a match-all
matcher and any other pattern to a match-nothing matcher, and a
robots.txt model that allows everything (as an empty robots.txt does). -/
def simpleCaps : Caps where
  urlParse := simpleParse
  urlJoin := simpleJoin
  regexBuild := fun p => some (fun _ => p = ".*")
  robotsAllowed := fun _ _ => true

/-- The per-link evaluator exactly as _filter_links compiles and passes it
to the filter closure: regexes are built from the excludes/includes lists,
invalid patterns silently dropped (crawler/src/lib.rs lines 121-125). -/
def compiledEval (caps : Caps) (data : FilterLinksCall)
    (base_url initial_url : UrlM) : String → Option String :=
  evalLink caps data base_url initial_url
    (data.excludes.filterMap caps.regexBuild)
    (data.includes.filterMap caps.regexBuild)

/-- Specification-side description of which input links the lazy
filter/take pipeline actually evaluates: links are scanned front to back
and scanning stops as soon as the accepted-links budget is exhausted. -/
def scannedLinks (eval : String → Option String) : Nat → List String → List String
  | _, [] => []
  | n, l :: ls =>
    if n = 0 then []
    else
      match eval l with
      | some _ => l :: scannedLinks eval n ls
      | none => l :: scannedLinks eval (n - 1) ls

theorem runFilter_fst (e : String → Option String) :
    ∀ (n : Nat) (ls : List String),
      (runFilter e n ls).1 = (ls.filter (fun l => (e l).isNone)).take n := by
  intro n ls
  induction ls generalizing n with
  | nil => simp [runFilter]
  | cons l ls ih =>
    cases n with
    | zero => simp [runFilter]
    | succ m =>
      simp only [runFilter, Nat.succ_ne_zero, if_false]
      cases h : e l with
      | some r => simp [List.filter_cons, h, ih]
      | none => simp [List.filter_cons, h, ih, List.take_succ_cons]

theorem runFilter_snd (e : String → Option String) :
    ∀ (n : Nat) (ls : List String),
      (runFilter e n ls).2 =
        (scannedLinks e n ls).filterMap (fun l => (e l).map (fun r => (l, r))) := by
  intro n ls
  induction ls generalizing n with
  | nil => simp [runFilter, scannedLinks]
  | cons l ls ih =>
    cases n with
    | zero => simp [runFilter, scannedLinks]
    | succ m =>
      simp only [runFilter, scannedLinks, Nat.succ_ne_zero, if_false]
      cases h : e l with
      | some r => simp [h, ih]
      | none => simp [h, ih]

theorem lookup_evalList (e : String → Option String) :
    ∀ (S : List String) (l : String),
      List.lookup l (S.filterMap (fun x => (e x).map (fun r => (x, r)))) =
        if l ∈ S then e l else none := by
  intro S
  induction S with
  | nil => simp
  | cons x S ih =>
    intro l
    cases h : e x with
    | none =>
      simp only [List.filterMap_cons, h, Option.map_none']
      rw [ih l]
      by_cases hx : l = x
      · subst hx
        simp [h]
      · simp [List.mem_cons, hx]
    | some r =>
      simp only [List.filterMap_cons, h, Option.map_some']
      by_cases hx : l = x
      · subst hx
        simp [List.lookup, h]
      · have hbeq : (l == x) = false := beq_false_of_ne hx
        simp only [List.lookup, hbeq]
        rw [ih l]
        simp [List.mem_cons, hx]

theorem mem_take_filter_scanned (e : String → Option String) :
    ∀ (n : Nat) (ls : List String) (l : String),
      l ∈ (ls.filter (fun x => (e x).isNone)).take n → l ∈ scannedLinks e n ls := by
  intro n ls
  induction ls generalizing n with
  | nil => simp
  | cons x ls ih =>
    intro l h
    cases n with
    | zero => simp at h
    | succ m =>
      simp only [scannedLinks, Nat.succ_ne_zero, if_false]
      cases hx : e x with
      | some r =>
        have h' : l ∈ (ls.filter (fun y => (e y).isNone)).take (m + 1) := by
          simpa [List.filter_cons, hx] using h
        exact List.mem_cons_of_mem x (ih (m + 1) l h')
      | none =>
        have h' : l = x ∨ l ∈ (ls.filter (fun y => (e y).isNone)).take m := by
          simpa [List.filter_cons, hx, List.take_succ_cons, List.mem_cons] using h
        rcases h' with h' | h'
        · exact List.mem_cons.mpr (Or.inl h')
        · exact List.mem_cons_of_mem x (ih m l h')

theorem scannedLinks_zero (e : String → Option String) (ls : List String) :
    scannedLinks e 0 ls = [] := by
  cases ls <;> simp [scannedLinks]

/-- C1: for every LinkFilterRequest with parseable base_url and
initial_url, the links field of the _filter_links result is the
order-preserving prefix (up to the effective limit) of the input links
accepted by the per-link evaluator; a link's denial reason is recorded
exactly when the link was scanned and rejected; accepted links never
appear among the denial reasons; links never scanned (truncated) appear
neither in the output links nor among the denial reasons. -/
theorem filter_links_spec
    (caps : Caps) (data : FilterLinksCall) (base_url initial_url : UrlM)
    (hb : caps.urlParse data.base_url = some base_url)
    (hi : caps.urlParse data.initial_url = some initial_url) :
    ∃ res, _filter_links caps data = Except.ok res ∧
      res.links = (data.links.filter
        (fun l => (compiledEval caps data base_url initial_url l).isNone)).take
          (effLimit data.limit) ∧
      List.Sublist res.links data.links ∧
      (∀ l r, List.lookup l res.denial_reasons = some r ↔
        (l ∈ scannedLinks (compiledEval caps data base_url initial_url)
              (effLimit data.limit) data.links ∧
         compiledEval caps data base_url initial_url l = some r)) ∧
      (∀ l, l ∈ res.links → List.lookup l res.denial_reasons = none) ∧
      (∀ l, l ∉ scannedLinks (compiledEval caps data base_url initial_url)
              (effLimit data.limit) data.links →
        l ∉ res.links ∧ List.lookup l res.denial_reasons = none) := by
  by_cases h0 : effLimit data.limit = 0
  · refine ⟨⟨[], []⟩, ?_, ?_, ?_, ?_, ?_, ?_⟩
    · unfold _filter_links
      simp [h0]
    · rw [h0]
      simp
    · exact List.nil_sublist data.links
    · intro l r
      constructor
      · intro hl
        simp [List.lookup] at hl
      · rintro ⟨hmem, -⟩
        rw [h0, scannedLinks_zero] at hmem
        cases hmem
    · intro l hl
      cases hl
    · intro l _
      exact ⟨List.not_mem_nil l, rfl⟩
  · have hres : _filter_links caps data = Except.ok
        ⟨(runFilter (compiledEval caps data base_url initial_url)
            (effLimit data.limit) data.links).1,
         (runFilter (compiledEval caps data base_url initial_url)
            (effLimit data.limit) data.links).2⟩ := by
      unfold _filter_links compiledEval
      simp [h0, hb, hi]
    refine ⟨_, hres, ?_, ?_, ?_, ?_, ?_⟩
    · exact runFilter_fst _ _ _
    · rw [runFilter_fst]
      exact (List.take_sublist _ _).trans (List.filter_sublist _)
    · intro l r
      rw [runFilter_snd, lookup_evalList]
      constructor
      · intro hl
        by_cases hm : l ∈ scannedLinks (compiledEval caps data base_url initial_url)
            (effLimit data.limit) data.links
        · rw [if_pos hm] at hl
          exact ⟨hm, hl⟩
        · rw [if_neg hm] at hl
          cases hl
      · rintro ⟨hm, hv⟩
        rw [if_pos hm]
        exact hv
    · intro l hl
      have h1 : l ∈ (data.links.filter
          (fun x => (compiledEval caps data base_url initial_url x).isNone)).take
            (effLimit data.limit) := by
        rw [← runFilter_fst]
        exact hl
      have h2 : (compiledEval caps data base_url initial_url l).isNone :=
        (List.mem_filter.mp ((List.take_sublist _ _).subset h1)).2
      rw [runFilter_snd, lookup_evalList]
      by_cases hm : l ∈ scannedLinks (compiledEval caps data base_url initial_url)
          (effLimit data.limit) data.links
      · rw [if_pos hm]
        exact Option.isNone_iff_eq_none.mp h2
      · rw [if_neg hm]
    · intro l hm
      constructor
      · intro hl
        exact hm (mem_take_filter_scanned _ _ _ l (by rw [← runFilter_fst]; exact hl))
      · rw [runFilter_snd, lookup_evalList, if_neg hm]

/-- Concrete request from the spec's truncation example: limit 2 with five
otherwise-accepted links. -/
def limitExample : FilterLinksCall where
  links := ["https://a.test/a", "https://a.test/b", "https://a.test/c",
            "https://a.test/d", "https://a.test/e"]
  limit := some 2
  max_depth := 10
  base_url := "https://a.test/"
  initial_url := "https://a.test/"
  regex_on_full_url := false
  excludes := []
  includes := []
  allow_backward_crawling := false
  ignore_robots_txt := true
  robots_txt := ""

theorem filter_links_spec_witness :
    _filter_links simpleCaps limitExample =
      Except.ok ⟨["https://a.test/a", "https://a.test/b"], []⟩ ∧
    simpleCaps.urlParse limitExample.base_url = some ⟨"https", "a.test", "/"⟩ ∧
    simpleCaps.urlParse limitExample.initial_url = some ⟨"https", "a.test", "/"⟩ ∧
    (∃ res, _filter_links simpleCaps limitExample = Except.ok res ∧
      res.links = (limitExample.links.filter
        (fun l => (compiledEval simpleCaps limitExample ⟨"https", "a.test", "/"⟩
          ⟨"https", "a.test", "/"⟩ l).isNone)).take (effLimit limitExample.limit) ∧
      List.Sublist res.links limitExample.links ∧
      (∀ l r, List.lookup l res.denial_reasons = some r ↔
        (l ∈ scannedLinks (compiledEval simpleCaps limitExample ⟨"https", "a.test", "/"⟩
              ⟨"https", "a.test", "/"⟩) (effLimit limitExample.limit) limitExample.links ∧
         compiledEval simpleCaps limitExample ⟨"https", "a.test", "/"⟩
           ⟨"https", "a.test", "/"⟩ l = some r)) ∧
      (∀ l, l ∈ res.links → List.lookup l res.denial_reasons = none) ∧
      (∀ l, l ∉ scannedLinks (compiledEval simpleCaps limitExample ⟨"https", "a.test", "/"⟩
              ⟨"https", "a.test", "/"⟩) (effLimit limitExample.limit) limitExample.links →
        l ∉ res.links ∧ List.lookup l res.denial_reasons = none)) :=
  ⟨by decide, by decide, by decide,
   filter_links_spec simpleCaps limitExample ⟨"https", "a.test", "/"⟩
     ⟨"https", "a.test", "/"⟩ (by decide) (by decide)⟩

/-! ### C2: fixed check order, first failing check wins -/

/-- The regex match target: full URL or path only (crawler/src/lib.rs lines 144-148). -/
def exincTarget (data : FilterLinksCall) (url : UrlM) : String :=
  if data.regex_on_full_url then url.asStr else url.path

/-- Depth check, as the spec lists it. -/
def depthCheck (data : FilterLinksCall) (url : UrlM) : Option String :=
  if _get_url_depth url.path > data.max_depth then some "DEPTH_LIMIT" else none

/-- Excludes-regex check, as the spec lists it. -/
def excludeCheck (data : FilterLinksCall) (excludes_regex : List (String → Bool))
    (url : UrlM) : Option String :=
  if !excludes_regex.isEmpty && excludes_regex.any (fun regex => regex (exincTarget data url)) then
    some "EXCLUDE_PATTERN"
  else none

/-- Includes-regex check, as the spec lists it. -/
def includeCheck (data : FilterLinksCall) (includes_regex : List (String → Bool))
    (url : UrlM) : Option String :=
  if !includes_regex.isEmpty && !includes_regex.any (fun regex => regex (exincTarget data url)) then
    some "INCLUDE_PATTERN"
  else none

/-- Backward-crawl path check, as the spec lists it. -/
def backwardCheck (data : FilterLinksCall) (initial_url : UrlM) (url : UrlM) : Option String :=
  if !data.allow_backward_crawling && !(chStartsWith url.path initial_url.path) then
    some "BACKWARD_CRAWLING"
  else none

/-- Robots.txt check, as the spec lists it. -/
def robotsCheck (caps : Caps) (data : FilterLinksCall) (url : UrlM) : Option String :=
  if !data.ignore_robots_txt && !(caps.robotsAllowed data.robots_txt url.asStr) then
    some "ROBOTS_TXT"
  else none

/-- File-extension check, as the spec lists it. -/
def fileCheck (url : UrlM) : Option String :=
  if _is_file url then some "FILE_TYPE" else none

/-- The seven post-join checks in the fixed order the spec prescribes. -/
def orderedChecks (caps : Caps) (data : FilterLinksCall) (initial_url : UrlM)
    (excludes_regex includes_regex : List (String → Bool)) (url : UrlM) :
    List (Option String) :=
  [depthCheck data url,
   excludeCheck data excludes_regex url,
   includeCheck data includes_regex url,
   backwardCheck data initial_url url,
   robotsCheck caps data url,
   fileCheck url]

/-- Specification-side evaluator: join first (URL_PARSE_ERROR on failure),
then return the verdict of the first failing check in the fixed order. -/
def firstFailing (caps : Caps) (data : FilterLinksCall) (base_url initial_url : UrlM)
    (excludes_regex includes_regex : List (String → Bool)) (link : String) :
    Option String :=
  match caps.urlJoin base_url link with
  | none => some "URL_PARSE_ERROR"
  | some url =>
    (orderedChecks caps data initial_url excludes_regex includes_regex url).findSome? id

/-- Concrete request for the order-conflict example. -/
def orderExample : FilterLinksCall where
  links := ["https://a.test/pic.png"]
  limit := none
  max_depth := 10
  base_url := "https://a.test/"
  initial_url := "https://a.test/"
  regex_on_full_url := false
  excludes := [".*"]
  includes := []
  allow_backward_crawling := true
  ignore_robots_txt := true
  robots_txt := ""

/-- C2: the per-link evaluator of _filter_links equals the
first-failing-check-wins evaluation of the checks in the fixed spec
order (join, depth, excludes, includes, backward, robots, file type);
in particular a link that both matches an excludes regex and carries a
blocked file extension is denied with EXCLUDE_PATTERN. -/
theorem evalLink_first_failing_check :
    (∀ (caps : Caps) (data : FilterLinksCall) (base_url initial_url : UrlM)
       (excludes_regex includes_regex : List (String → Bool)) (link : String),
        evalLink caps data base_url initial_url excludes_regex includes_regex link =
        firstFailing caps data base_url initial_url excludes_regex includes_regex link) ∧
    evalLink simpleCaps orderExample ⟨"https", "a.test", "/"⟩ ⟨"https", "a.test", "/"⟩
      [fun _ => true] [] "https://a.test/pic.png" = some "EXCLUDE_PATTERN" ∧
    _is_file ⟨"https", "a.test", "/pic.png"⟩ = true := by
  refine ⟨?_, by decide, by decide⟩
  intro caps data base_url initial_url excludes_regex includes_regex link
  unfold evalLink firstFailing
  cases hj : caps.urlJoin base_url link with
  | none => rfl
  | some url =>
    simp only [orderedChecks, depthCheck, excludeCheck, includeCheck, backwardCheck,
      robotsCheck, fileCheck, exincTarget]
    by_cases h1 : _get_url_depth url.path > data.max_depth
    · simp [h1, List.findSome?]
    · simp only [h1, if_false]
      by_cases h2 : (!excludes_regex.isEmpty &&
          excludes_regex.any (fun regex => regex (if data.regex_on_full_url then url.asStr else url.path))) = true
      · simp [h2, List.findSome?]
      · simp only [Bool.not_eq_true] at h2
        simp only [h2, if_false]
        by_cases h3 : (!includes_regex.isEmpty &&
            !includes_regex.any (fun regex => regex (if data.regex_on_full_url then url.asStr else url.path))) = true
        · simp [h3, List.findSome?]
        · simp only [Bool.not_eq_true] at h3
          simp only [h3, if_false]
          by_cases h4 : (!data.allow_backward_crawling &&
              !(chStartsWith url.path initial_url.path)) = true
          · simp [h4, List.findSome?]
          · simp only [Bool.not_eq_true] at h4
            simp only [h4, if_false]
            by_cases h5 : (!data.ignore_robots_txt &&
                !(caps.robotsAllowed data.robots_txt url.asStr)) = true
            · simp [h5, List.findSome?]
            · simp only [Bool.not_eq_true] at h5
              simp only [h5, if_false]
              by_cases h6 : _is_file url = true
              · simp [h6, List.findSome?]
              · simp only [Bool.not_eq_true] at h6
                simp [h6, List.findSome?]

/-! ### C3: path depth and DEPTH_LIMIT -/

/-- Concrete request from the spec's depth example: max_depth 0 against a
depth-2 link. -/
def depthExample : FilterLinksCall where
  links := ["https://a.test/x/y"]
  limit := none
  max_depth := 0
  base_url := "https://a.test/"
  initial_url := "https://a.test/"
  regex_on_full_url := false
  excludes := []
  includes := []
  allow_backward_crawling := false
  ignore_robots_txt := true
  robots_txt := ""

/-- C3: the path depth computed by _get_url_depth is the number of path
segments that are non-empty and not literally index.php or index.html; a
joined candidate whose depth exceeds max_depth is denied with
DEPTH_LIMIT; with max_depth 0, base https://a.test/ and link
https://a.test/x/y the link is denied with DEPTH_LIMIT. -/
theorem depth_limit_spec :
    (∀ path, _get_url_depth path =
      (chSplit '/' path).countP
        (fun seg => decide (seg ≠ "" ∧ seg ≠ "index.php" ∧ seg ≠ "index.html"))) ∧
    (∀ (caps : Caps) (data : FilterLinksCall) (base_url initial_url : UrlM)
       (excludes_regex includes_regex : List (String → Bool)) (link : String) (url : UrlM),
        caps.urlJoin base_url link = some url →
        _get_url_depth url.path > data.max_depth →
        evalLink caps data base_url initial_url excludes_regex includes_regex link =
          some "DEPTH_LIMIT") ∧
    _filter_links simpleCaps depthExample =
      Except.ok ⟨[], [("https://a.test/x/y", "DEPTH_LIMIT")]⟩ := by
  refine ⟨?_, ?_, by decide⟩
  · intro path
    unfold _get_url_depth
    rw [List.countP_eq_length_filter]
    have hpq : ∀ seg : String,
        (seg != "" && seg != "index.php" && seg != "index.html") =
        decide (seg ≠ "" ∧ seg ≠ "index.php" ∧ seg ≠ "index.html") := by
      intro seg
      rw [Bool.eq_iff_iff]
      simp [Bool.and_eq_true, bne_iff_ne, decide_eq_true_eq, and_assoc]
    simp only [hpq]
  · intro caps data base_url initial_url excludes_regex includes_regex link url hj hd
    unfold evalLink
    rw [hj]
    simp [hd]

theorem depth_limit_spec_witness :
    simpleCaps.urlJoin ⟨"https", "a.test", "/"⟩ "https://a.test/x/y" =
      some ⟨"https", "a.test", "/x/y"⟩ ∧
    _get_url_depth "/x/y" > depthExample.max_depth ∧
    evalLink simpleCaps depthExample ⟨"https", "a.test", "/"⟩ ⟨"https", "a.test", "/"⟩
      [] [] "https://a.test/x/y" = some "DEPTH_LIMIT" :=
  ⟨by decide, by decide,
   depth_limit_spec.2.1 simpleCaps depthExample ⟨"https", "a.test", "/"⟩
     ⟨"https", "a.test", "/"⟩ [] [] "https://a.test/x/y"
     ⟨"https", "a.test", "/x/y"⟩ (by decide) (by decide)⟩

/-! ### Sitemap classifier (crawler/src/lib.rs) -/

/-- Model of an XML element as exposed by the roxmltree API surface the
crawler uses: the local tag name, the result of Node::text() (the first
text child, if any), and the element children in document order. -/
inductive XmlElem : Type where
  | node : String → Option String → List XmlElem → XmlElem

/-- Local tag name of an element. -/
def XmlElem.name : XmlElem → String
  | .node n _ _ => n

/-- Model of roxmltree Node::text(). -/
def XmlElem.textOf : XmlElem → Option String
  | .node _ t _ => t

/-- Element children in document order. -/
def XmlElem.children : XmlElem → List XmlElem
  | .node _ _ c => c

/-- Embeds SitemapUrl (crawler/src/lib.rs lines 29-32). -/
structure SitemapUrl where
  loc : List String
deriving DecidableEq, Repr

/-- Embeds SitemapEntry (crawler/src/lib.rs lines 34-37). -/
structure SitemapEntry where
  loc : List String
deriving DecidableEq, Repr

/-- Embeds SitemapUrlset (crawler/src/lib.rs lines 46-49). -/
structure SitemapUrlset where
  url : List SitemapUrl
deriving DecidableEq, Repr

/-- Embeds SitemapIndex (crawler/src/lib.rs lines 51-54). -/
structure SitemapIndex where
  sitemap : List SitemapEntry
deriving DecidableEq, Repr

/-- Embeds ParsedSitemap (crawler/src/lib.rs lines 39-44). -/
inductive ParsedSitemap : Type where
  | urlset : SitemapUrlset → ParsedSitemap
  | sitemapIndex : SitemapIndex → ParsedSitemap
deriving DecidableEq, Repr

/-- The two structural failures of _parse_sitemap_xml: a roxmltree parse
failure, or a root tag that is neither sitemapindex nor urlset. -/
inductive SitemapError : Type where
  | xmlParseError : SitemapError
  | invalidRootElement : SitemapError
deriving DecidableEq, Repr

/-- Embeds the sitemapindex collection loop of _parse_sitemap_xml
(crawler/src/lib.rs lines 228-238): for each child element named sitemap,
push the text of its first loc child when both exist. -/
def collectSitemapEntries (root : XmlElem) : List SitemapEntry :=
  (root.children.filter (fun n => n.name == "sitemap")).foldl
    (fun acc n =>
      match n.children.find? (fun c => c.name == "loc") with
      | some locNode =>
        match locNode.textOf with
        | some t => acc ++ [⟨[t]⟩]
        | none => acc
      | none => acc) []

/-- Embeds the urlset collection loop of _parse_sitemap_xml
(crawler/src/lib.rs lines 245-255). -/
def collectSitemapUrls (root : XmlElem) : List SitemapUrl :=
  (root.children.filter (fun n => n.name == "url")).foldl
    (fun acc n =>
      match n.children.find? (fun c => c.name == "loc") with
      | some locNode =>
        match locNode.textOf with
        | some t => acc ++ [⟨[t]⟩]
        | none => acc
      | none => acc) []

/-- Embeds _parse_sitemap_xml (crawler/src/lib.rs lines 222-265),
parameterized over the external roxmltree parser. -/
def _parse_sitemap_xml (parseXml : String → Option XmlElem) (xml_content : String) :
    Except SitemapError ParsedSitemap :=
  match parseXml xml_content with
  | none => Except.error SitemapError.xmlParseError
  | some root =>
    if root.name == "sitemapindex" then
      Except.ok (ParsedSitemap.sitemapIndex ⟨collectSitemapEntries root⟩)
    else if root.name == "urlset" then
      Except.ok (ParsedSitemap.urlset ⟨collectSitemapUrls root⟩)
    else
      Except.error SitemapError.invalidRootElement

/-- Specification-side description of the captured loc texts: each child
element with the given tag contributes the text of its first loc child,
when present. -/
def specLocTexts (root : XmlElem) (tag : String) : List String :=
  root.children.filterMap (fun n =>
    if n.name == tag then (n.children.find? (fun c => c.name == "loc")).bind XmlElem.textOf
    else none)

theorem foldl_push_eq_filterMap {α β : Type} (f : α → Option β) :
    ∀ (l : List α) (acc : List β),
      l.foldl (fun a x =>
        match f x with
        | some b => a ++ [b]
        | none => a) acc =
      acc ++ l.filterMap f := by
  intro l
  induction l with
  | nil => simp
  | cons x l ih =>
    intro acc
    cases hf : f x <;> simp [List.filterMap_cons, hf, ih]

theorem filterMap_filter_eq {α β : Type} (p : α → Bool) (g : α → Option β) :
    ∀ l : List α,
      (l.filter p).filterMap g = l.filterMap (fun x => if p x then g x else none) := by
  intro l
  induction l with
  | nil => rfl
  | cons x l ih =>
    by_cases hp : p x <;> simp [List.filter_cons, hp, List.filterMap_cons, ih]

theorem collectUrls_aux :
    ∀ (l : List XmlElem) (acc : List SitemapUrl),
      l.foldl (fun acc n =>
        match n.children.find? (fun c => c.name == "loc") with
        | some locNode =>
          match locNode.textOf with
          | some t => acc ++ [⟨[t]⟩]
          | none => acc
        | none => acc) acc =
      acc ++ l.filterMap (fun n =>
        ((n.children.find? (fun c => c.name == "loc")).bind XmlElem.textOf).map
          (fun t => (⟨[t]⟩ : SitemapUrl))) := by
  intro l
  induction l with
  | nil => simp
  | cons x l ih =>
    intro acc
    simp only [List.foldl_cons, List.filterMap_cons]
    cases hf : x.children.find? (fun c => c.name == "loc") with
    | none => simp [ih]
    | some locNode => cases ht : locNode.textOf <;> simp [ht, ih]

theorem collectEntries_aux :
    ∀ (l : List XmlElem) (acc : List SitemapEntry),
      l.foldl (fun acc n =>
        match n.children.find? (fun c => c.name == "loc") with
        | some locNode =>
          match locNode.textOf with
          | some t => acc ++ [⟨[t]⟩]
          | none => acc
        | none => acc) acc =
      acc ++ l.filterMap (fun n =>
        ((n.children.find? (fun c => c.name == "loc")).bind XmlElem.textOf).map
          (fun t => (⟨[t]⟩ : SitemapEntry))) := by
  intro l
  induction l with
  | nil => simp
  | cons x l ih =>
    intro acc
    simp only [List.foldl_cons, List.filterMap_cons]
    cases hf : x.children.find? (fun c => c.name == "loc") with
    | none => simp [ih]
    | some locNode => cases ht : locNode.textOf <;> simp [ht, ih]

theorem collectSitemapUrls_eq (root : XmlElem) :
    collectSitemapUrls root = (specLocTexts root "url").map (fun t => ⟨[t]⟩) := by
  unfold collectSitemapUrls specLocTexts
  rw [collectUrls_aux, filterMap_filter_eq, List.map_filterMap, List.nil_append]
  congr 1
  funext n
  by_cases hn : (n.name == "url") = true <;> simp [hn]

theorem collectSitemapEntries_eq (root : XmlElem) :
    collectSitemapEntries root = (specLocTexts root "sitemap").map (fun t => ⟨[t]⟩) := by
  unfold collectSitemapEntries specLocTexts
  rw [collectEntries_aux, filterMap_filter_eq, List.map_filterMap, List.nil_append]
  congr 1
  funext n
  by_cases hn : (n.name == "sitemap") = true <;> simp [hn]

/-- Embeds SitemapInstruction (crawler/src/lib.rs lines 56-61). -/
structure SitemapInstruction where
  action : String
  urls : List String
  count : Nat
deriving DecidableEq, Repr

/-- Embeds SitemapProcessingResult (crawler/src/lib.rs lines 63-67). -/
structure SitemapProcessingResult where
  instructions : List SitemapInstruction
  total_count : Nat
deriving DecidableEq, Repr

/-- Embeds _process_sitemap (crawler/src/lib.rs lines 293-361),
parameterized over the external XML and URL parsers.  The imperative
instruction pushes and the total_count additions become conditional list
appends and a sum of conditionals. -/
def _process_sitemap (parseXml : String → Option XmlElem) (urlParse : String → Option UrlM)
    (xml_content : String) : Except SitemapError SitemapProcessingResult :=
  match _parse_sitemap_xml parseXml xml_content with
  | Except.error e => Except.error e
  | Except.ok parsed =>
    match parsed with
    | ParsedSitemap.sitemapIndex si =>
      let sitemap_urls := si.sitemap.filterMap (fun sm =>
        if !sm.loc.isEmpty then some (chTrim (sm.loc.headD "")) else none)
      if !sitemap_urls.isEmpty then
        Except.ok ⟨[⟨"recurse", sitemap_urls, sitemap_urls.length⟩], sitemap_urls.length⟩
      else
        Except.ok ⟨[], 0⟩
    | ParsedSitemap.urlset us =>
      let p := us.url.foldl (fun (acc : List String × List String) url_entry =>
        if !url_entry.loc.isEmpty then
          if chEndsWith (chToLower (chTrim (url_entry.loc.headD ""))) ".xml" then
            (acc.1 ++ [chTrim (url_entry.loc.headD "")], acc.2)
          else
            match urlParse (chTrim (url_entry.loc.headD "")) with
            | some parsed_url =>
              if !(_is_file parsed_url) then
                (acc.1, acc.2 ++ [chTrim (url_entry.loc.headD "")])
              else acc
            | none => acc
        else acc) ([], [])
      Except.ok ⟨(if !p.1.isEmpty then [⟨"recurse", p.1, p.1.length⟩] else []) ++
                 (if !p.2.isEmpty then [⟨"process", p.2, p.2.length⟩] else []),
                 (if !p.1.isEmpty then p.1.length else 0) +
                 (if !p.2.isEmpty then p.2.length else 0)⟩

/-- Specification-side partition of a urlset: the trimmed locs that end in
.xml case-insensitively (nested sitemaps). -/
def urlsetXmlLocs (urls : List SitemapUrl) : List String :=
  urls.filterMap (fun e =>
    if e.loc.isEmpty then none
    else
      if chEndsWith (chToLower (chTrim (e.loc.headD ""))) ".xml" then
        some (chTrim (e.loc.headD ""))
      else none)

/-- Specification-side partition of a urlset: the trimmed locs that do not
end in .xml, parse as URLs and are not rejected by the file-extension
check (content pages). -/
def urlsetPageLocs (urlParse : String → Option UrlM) (urls : List SitemapUrl) : List String :=
  urls.filterMap (fun e =>
    if e.loc.isEmpty then none
    else
      if chEndsWith (chToLower (chTrim (e.loc.headD ""))) ".xml" then none
      else
        match urlParse (chTrim (e.loc.headD "")) with
        | some parsed_url =>
          if _is_file parsed_url then none else some (chTrim (e.loc.headD ""))
        | none => none)

theorem urlset_fold_eq (urlParse : String → Option UrlM) :
    ∀ (l : List SitemapUrl) (acc : List String × List String),
      l.foldl (fun (acc : List String × List String) url_entry =>
        if !url_entry.loc.isEmpty then
          if chEndsWith (chToLower (chTrim (url_entry.loc.headD ""))) ".xml" then
            (acc.1 ++ [chTrim (url_entry.loc.headD "")], acc.2)
          else
            match urlParse (chTrim (url_entry.loc.headD "")) with
            | some parsed_url =>
              if !(_is_file parsed_url) then
                (acc.1, acc.2 ++ [chTrim (url_entry.loc.headD "")])
              else acc
            | none => acc
        else acc) acc =
      (acc.1 ++ urlsetXmlLocs l, acc.2 ++ urlsetPageLocs urlParse l) := by
  intro l
  induction l with
  | nil =>
    intro acc
    simp [urlsetXmlLocs, urlsetPageLocs]
  | cons e l ih =>
    intro acc
    rw [List.foldl_cons, ih]
    obtain ⟨loc⟩ := e
    cases loc with
    | nil => simp [urlsetXmlLocs, urlsetPageLocs, List.filterMap_cons]
    | cons a rest =>
      by_cases h2 : chEndsWith (chToLower (chTrim a)) ".xml" = true
      · simp [urlsetXmlLocs, urlsetPageLocs, List.filterMap_cons, h2, List.append_assoc]
      · cases hu : urlParse (chTrim a) with
        | none =>
          simp [urlsetXmlLocs, urlsetPageLocs, List.filterMap_cons, h2, hu]
        | some parsed_url =>
          by_cases h3 : _is_file parsed_url = true
          · simp [urlsetXmlLocs, urlsetPageLocs, List.filterMap_cons, h2, hu, h3]
          · simp [urlsetXmlLocs, urlsetPageLocs, List.filterMap_cons, h2, hu, h3,
              List.append_assoc]

theorem mem_urlsetXmlLocs {t : String} {l : List SitemapUrl}
    (h : t ∈ urlsetXmlLocs l) : chEndsWith (chToLower t) ".xml" = true := by
  rcases List.mem_filterMap.mp h with ⟨e, -, he⟩
  obtain ⟨loc⟩ := e
  cases loc with
  | nil => simp at he
  | cons a rest =>
    by_cases h2 : chEndsWith (chToLower (chTrim a)) ".xml" = true
    · simp only [List.isEmpty_cons, if_false, Bool.false_eq_true, List.headD_cons, h2,
        if_true, Option.some.injEq] at he
      exact he ▸ h2
    · simp [h2] at he

theorem mem_urlsetPageLocs {urlParse : String → Option UrlM} {t : String}
    {l : List SitemapUrl} (h : t ∈ urlsetPageLocs urlParse l) :
    ∃ parsed_url, urlParse t = some parsed_url ∧ _is_file parsed_url = false := by
  rcases List.mem_filterMap.mp h with ⟨e, -, he⟩
  obtain ⟨loc⟩ := e
  cases loc with
  | nil => simp at he
  | cons a rest =>
    by_cases h2 : chEndsWith (chToLower (chTrim a)) ".xml" = true
    · simp [h2] at he
    · cases hu : urlParse (chTrim a) with
      | none => simp [h2, hu] at he
      | some parsed_url =>
        by_cases h3 : _is_file parsed_url = true
        · simp [h2, hu, h3] at he
        · simp only [urlsetPageLocs, List.isEmpty_cons, Bool.false_eq_true, if_false,
            List.headD_cons, h2, hu, h3, Option.some.injEq] at he
          refine ⟨parsed_url, he ▸ hu, ?_⟩
          cases hf : _is_file parsed_url
          · rfl
          · exact absurd hf h3

theorem if_not_isEmpty {α : Type} {β : Type} [DecidableEq α] (l : List α) (a b : β) :
    (if !l.isEmpty then a else b) = if l = [] then b else a := by
  cases l <;> simp

/-- Concrete urlset for the spec's sitemap example: one .xml loc and one
plain URL loc. -/
def exampleUrlsetRoot : XmlElem :=
  XmlElem.node "urlset" none
    [XmlElem.node "url" none [XmlElem.node "loc" (some "https://e.test/s.xml") []],
     XmlElem.node "url" none [XmlElem.node "loc" (some "https://e.test/p") []]]

/-- C5: _parse_sitemap_xml returns the XML-parse error whenever the
external parser rejects the input (total, never a success value); it
returns the invalid-root error exactly when the XML parses but the root
tag is neither sitemapindex nor urlset; for either accepted root tag it
succeeds, capturing each child sitemap/url element's first loc text when
present. -/
theorem parse_sitemap_spec :
    ∀ (parseXml : String → Option XmlElem) (xml_content : String),
      (parseXml xml_content = none →
        _parse_sitemap_xml parseXml xml_content =
          Except.error SitemapError.xmlParseError) ∧
      (_parse_sitemap_xml parseXml xml_content =
          Except.error SitemapError.invalidRootElement ↔
        ∃ root, parseXml xml_content = some root ∧
          root.name ≠ "sitemapindex" ∧ root.name ≠ "urlset") ∧
      (∀ root, parseXml xml_content = some root → root.name = "sitemapindex" →
        _parse_sitemap_xml parseXml xml_content =
          Except.ok (ParsedSitemap.sitemapIndex
            ⟨(specLocTexts root "sitemap").map (fun t => ⟨[t]⟩)⟩)) ∧
      (∀ root, parseXml xml_content = some root → root.name = "urlset" →
        _parse_sitemap_xml parseXml xml_content =
          Except.ok (ParsedSitemap.urlset
            ⟨(specLocTexts root "url").map (fun t => ⟨[t]⟩)⟩)) := by
  intro parseXml xml_content
  refine ⟨?_, ?_, ?_, ?_⟩
  · intro h
    unfold _parse_sitemap_xml
    rw [h]
  · unfold _parse_sitemap_xml
    cases hp : parseXml xml_content with
    | none => simp
    | some root =>
      by_cases h1 : (root.name == "sitemapindex") = true
      · simp only [h1, if_true]
        constructor
        · intro h
          cases h
        · rintro ⟨root', hr, hn, -⟩
          rw [← Option.some.inj hr] at hn
          exact absurd (by simpa using h1) hn
      · by_cases h2 : (root.name == "urlset") = true
        · simp only [h1, if_false, h2, if_true, Bool.false_eq_true]
          constructor
          · intro h
            cases h
          · rintro ⟨root', hr, -, hn⟩
            rw [← Option.some.inj hr] at hn
            exact absurd (by simpa using h2) hn
        · simp only [h1, if_false, h2, Bool.false_eq_true]
          constructor
          · intro _
            exact ⟨root, rfl, by simpa using h1, by simpa using h2⟩
          · intro _
            trivial
  · intro root hp hname
    unfold _parse_sitemap_xml
    rw [hp]
    have h1 : (root.name == "sitemapindex") = true := by simp [hname]
    simp [h1, collectSitemapEntries_eq]
  · intro root hp hname
    unfold _parse_sitemap_xml
    rw [hp]
    have h1 : (root.name == "sitemapindex") = false := by simp [hname]
    have h2 : (root.name == "urlset") = true := by simp [hname]
    simp [h1, h2, collectSitemapUrls_eq]

theorem parse_sitemap_spec_witness :
    (fun _ : String => (none : Option XmlElem)) "<bad" = none ∧
    _parse_sitemap_xml (fun _ => none) "<bad" =
      Except.error SitemapError.xmlParseError ∧
    (fun _ : String => some exampleUrlsetRoot) "s" = some exampleUrlsetRoot ∧
    exampleUrlsetRoot.name = "urlset" ∧
    _parse_sitemap_xml (fun _ => some exampleUrlsetRoot) "s" =
      Except.ok (ParsedSitemap.urlset
        ⟨(specLocTexts exampleUrlsetRoot "url").map (fun t => ⟨[t]⟩)⟩) :=
  ⟨rfl, (parse_sitemap_spec (fun _ => none) "<bad").1 rfl, rfl, rfl,
   (parse_sitemap_spec (fun _ => some exampleUrlsetRoot) "s").2.2.2
     exampleUrlsetRoot rfl rfl⟩

/-- C4: on a urlset sitemap, _process_sitemap partitions the trimmed locs
into a single recurse instruction (locs ending in .xml
case-insensitively) and a single process instruction (locs that parse as
URLs and pass the file-extension check), each emitted only when
non-empty; unparseable locs appear in neither; every instruction's count
is the length of its urls; total_count is the sum of the emitted counts;
and the spec's one-.xml-loc-plus-one-page-loc example yields counts 1 and
1 with total 2. -/
theorem process_sitemap_urlset_spec :
    (∀ (parseXml : String → Option XmlElem) (urlParse : String → Option UrlM)
       (xml_content : String) (root : XmlElem),
        parseXml xml_content = some root → root.name = "urlset" →
        ∃ r, _process_sitemap parseXml urlParse xml_content = Except.ok r ∧
          r.instructions =
            (if urlsetXmlLocs (collectSitemapUrls root) = [] then []
             else [⟨"recurse", urlsetXmlLocs (collectSitemapUrls root),
                    (urlsetXmlLocs (collectSitemapUrls root)).length⟩]) ++
            (if urlsetPageLocs urlParse (collectSitemapUrls root) = [] then []
             else [⟨"process", urlsetPageLocs urlParse (collectSitemapUrls root),
                    (urlsetPageLocs urlParse (collectSitemapUrls root)).length⟩]) ∧
          (∀ instr, instr ∈ r.instructions → instr.count = instr.urls.length) ∧
          r.total_count = (r.instructions.map SitemapInstruction.count).sum ∧
          (∀ t, chEndsWith (chToLower t) ".xml" = false → urlParse t = none →
            ∀ instr, instr ∈ r.instructions → t ∉ instr.urls)) ∧
    _process_sitemap (fun _ => some exampleUrlsetRoot) simpleParse "s" =
      Except.ok ⟨[⟨"recurse", ["https://e.test/s.xml"], 1⟩,
                  ⟨"process", ["https://e.test/p"], 1⟩], 2⟩ := by
  constructor
  · intro parseXml urlParse xml_content root hp hname
    have hparse : _parse_sitemap_xml parseXml xml_content =
        Except.ok (ParsedSitemap.urlset ⟨collectSitemapUrls root⟩) := by
      unfold _parse_sitemap_xml
      rw [hp]
      have h1 : (root.name == "sitemapindex") = false := by simp [hname]
      have h2 : (root.name == "urlset") = true := by simp [hname]
      simp [h1, h2]
    have hrun : _process_sitemap parseXml urlParse xml_content = Except.ok
        ⟨(if urlsetXmlLocs (collectSitemapUrls root) = [] then []
          else [⟨"recurse", urlsetXmlLocs (collectSitemapUrls root),
                 (urlsetXmlLocs (collectSitemapUrls root)).length⟩]) ++
         (if urlsetPageLocs urlParse (collectSitemapUrls root) = [] then []
          else [⟨"process", urlsetPageLocs urlParse (collectSitemapUrls root),
                 (urlsetPageLocs urlParse (collectSitemapUrls root)).length⟩]),
         (if urlsetXmlLocs (collectSitemapUrls root) = [] then 0
          else (urlsetXmlLocs (collectSitemapUrls root)).length) +
         (if urlsetPageLocs urlParse (collectSitemapUrls root) = [] then 0
          else (urlsetPageLocs urlParse (collectSitemapUrls root)).length)⟩ := by
      unfold _process_sitemap
      rw [hparse]
      simp only [urlset_fold_eq urlParse]
      simp only [List.nil_append, if_not_isEmpty]
    refine ⟨_, hrun, rfl, ?_, ?_, ?_⟩
    · intro instr hinstr
      rcases List.mem_append.mp hinstr with h | h
      · by_cases hxs : urlsetXmlLocs (collectSitemapUrls root) = []
        · rw [if_pos hxs] at h
          cases h
        · rw [if_neg hxs] at h
          have := List.mem_singleton.mp h
          subst this
          rfl
      · by_cases hvs : urlsetPageLocs urlParse (collectSitemapUrls root) = []
        · rw [if_pos hvs] at h
          cases h
        · rw [if_neg hvs] at h
          have := List.mem_singleton.mp h
          subst this
          rfl
    · by_cases hxs : urlsetXmlLocs (collectSitemapUrls root) = [] <;>
        by_cases hvs : urlsetPageLocs urlParse (collectSitemapUrls root) = [] <;>
        simp [hxs, hvs]
    · intro t hxml hup instr hinstr hmem
      rcases List.mem_append.mp hinstr with h | h
      · by_cases hxs : urlsetXmlLocs (collectSitemapUrls root) = []
        · rw [if_pos hxs] at h
          cases h
        · rw [if_neg hxs] at h
          have := List.mem_singleton.mp h
          subst this
          have := mem_urlsetXmlLocs hmem
          rw [hxml] at this
          cases this
      · by_cases hvs : urlsetPageLocs urlParse (collectSitemapUrls root) = []
        · rw [if_pos hvs] at h
          cases h
        · rw [if_neg hvs] at h
          have := List.mem_singleton.mp h
          subst this
          rcases mem_urlsetPageLocs hmem with ⟨pu, hpu, -⟩
          rw [hup] at hpu
          cases hpu
  · decide

theorem process_sitemap_urlset_spec_witness :
    (fun _ : String => some exampleUrlsetRoot) "s" = some exampleUrlsetRoot ∧
    exampleUrlsetRoot.name = "urlset" ∧
    (∃ r, _process_sitemap (fun _ => some exampleUrlsetRoot) simpleParse "s" =
        Except.ok r ∧
      r.instructions =
        (if urlsetXmlLocs (collectSitemapUrls exampleUrlsetRoot) = [] then []
         else [⟨"recurse", urlsetXmlLocs (collectSitemapUrls exampleUrlsetRoot),
                (urlsetXmlLocs (collectSitemapUrls exampleUrlsetRoot)).length⟩]) ++
        (if urlsetPageLocs simpleParse (collectSitemapUrls exampleUrlsetRoot) = [] then []
         else [⟨"process", urlsetPageLocs simpleParse (collectSitemapUrls exampleUrlsetRoot),
                (urlsetPageLocs simpleParse (collectSitemapUrls exampleUrlsetRoot)).length⟩]) ∧
      (∀ instr, instr ∈ r.instructions → instr.count = instr.urls.length) ∧
      r.total_count = (r.instructions.map SitemapInstruction.count).sum ∧
      (∀ t, chEndsWith (chToLower t) ".xml" = false → simpleParse t = none →
        ∀ instr, instr ∈ r.instructions → t ∉ instr.urls)) :=
  ⟨rfl, rfl,
   process_sitemap_urlset_spec.1 (fun _ => some exampleUrlsetRoot) simpleParse "s"
     exampleUrlsetRoot rfl rfl⟩

/-! ### Metadata extractor (html-transformer/src/lib.rs) -/

/-- Model of serde_json Value as used by _extract_metadata: only strings
and arrays ever occur there. -/
inductive MValue : Type where
  | s : String → MValue
  | arr : List MValue → MValue

/-- Model of a meta element: the four attributes _extract_metadata reads. -/
structure MetaTag where
  name : Option String
  property : Option String
  itemprop : Option String
  content : Option String

/-- Model of the document as seen through the DOM selects _extract_metadata
performs: first title text, the favicon link href for the exact icon rel
and for the substring fallback, the html lang attribute, and the meta
elements in document order. -/
structure DocModel where
  titleText : Option String
  iconHrefExact : Option String
  iconHrefAny : Option String
  htmlLang : Option String
  metas : List MetaTag

/-- The output HashMap, modelled as an association list read through
List.lookup; HashMap::insert prepends so lookup sees the latest value. -/
def MMap : Type := List (String × MValue)

/-- Models HashMap::insert. -/
def insertM (k : String) (v : MValue) (out : MMap) : MMap := (k, v) :: out

/-- The identifying key of a meta element in the generic pass
(html-transformer/src/lib.rs line 190): name, else property, else itemprop. -/
def metaKey (m : MetaTag) : Option String :=
  (m.name.orElse (fun _ => m.property)).orElse (fun _ => m.itemprop)

/-- Embeds one iteration of the generic meta pass of _extract_metadata
(html-transformer/src/lib.rs lines 186-227).  The in-place array push of
the source becomes an insert of the appended array, which has the same
lookup semantics. -/
def genericStep (out : MMap) (m : MetaTag) : MMap :=
  match metaKey m with
  | none => out
  | some name =>
    match m.content with
    | none => out
    | some content =>
      match List.lookup name out with
      | some (MValue.s existing) =>
        if name == "description" then
          insertM name (MValue.s (existing ++ ", " ++ content)) out
        else if name != "title" then
          insertM name (MValue.arr [MValue.s existing, MValue.s content]) out
        else out
      | some (MValue.arr existing_array) =>
        if name == "description" then
          insertM name (MValue.s (chIntercalate ", "
            ((existing_array.filterMap (fun v =>
              match v with
              | MValue.s x => some x
              | _ => none)) ++ [content]))) out
        else
          insertM name (MValue.arr (existing_array ++ [MValue.s content])) out
      | none => insertM name (MValue.s content) out

/-- The generic pass over every meta element, in document order. -/
def genericPass (out : MMap) (metas : List MetaTag) : MMap :=
  metas.foldl genericStep out

/-- Models one insert_meta_name / insert_meta_property macro expansion:
insert the value when the select produced one. -/
def condInsert (k : String) (v : Option String) (out : MMap) : MMap :=
  match v with
  | some x => insertM k (MValue.s x) out
  | none => out

/-- First meta with the given property attribute, then its content
(html-transformer/src/lib.rs lines 114-120). -/
def metaPropContent (metas : List MetaTag) (p : String) : Option String :=
  (metas.find? (fun m => m.property == some p)).bind (fun m => m.content)

/-- First meta with the given name attribute, then its content
(html-transformer/src/lib.rs lines 106-112). -/
def metaNameContent (metas : List MetaTag) (p : String) : Option String :=
  (metas.find? (fun m => m.name == some p)).bind (fun m => m.content)

/-- Embeds the og:locale:alternate accumulation loop of _extract_metadata
(html-transformer/src/lib.rs lines 152-167).  The source declares the
non-array collision unreachable; it is modelled as the identity. -/
def ogLocaleAltStep (out : MMap) (m : MetaTag) : MMap :=
  if m.property == some "og:locale:alternate" then
    match m.content with
    | some content =>
      match List.lookup "ogLocaleAlternate" out with
      | some (MValue.arr x) =>
        insertM "ogLocaleAlternate" (MValue.arr (x ++ [MValue.s content])) out
      | none => insertM "ogLocaleAlternate" (MValue.arr [MValue.s content]) out
      | some _ => out
    | none => out
  else out

/-- Embeds the named-catalog part of _extract_metadata
(html-transformer/src/lib.rs lines 126-184), in source order; the
description/keywords/robots inserts are commented out in the source. -/
def catalogOut (doc : DocModel) : MMap :=
  let out : MMap := []
  let out := condInsert "title" doc.titleText out
  let out := condInsert "favicon" (doc.iconHrefExact.orElse (fun _ => doc.iconHrefAny)) out
  let out := condInsert "language" doc.htmlLang out
  let out := condInsert "ogTitle" (metaPropContent doc.metas "og:title") out
  let out := condInsert "ogDescription" (metaPropContent doc.metas "og:description") out
  let out := condInsert "ogUrl" (metaPropContent doc.metas "og:url") out
  let out := condInsert "ogImage" (metaPropContent doc.metas "og:image") out
  let out := condInsert "ogAudio" (metaPropContent doc.metas "og:audio") out
  let out := condInsert "ogDeterminer" (metaPropContent doc.metas "og:determiner") out
  let out := condInsert "ogLocale" (metaPropContent doc.metas "og:locale") out
  let out := doc.metas.foldl ogLocaleAltStep out
  let out := condInsert "ogSiteName" (metaPropContent doc.metas "og:site_name") out
  let out := condInsert "ogVideo" (metaPropContent doc.metas "og:video") out
  let out := condInsert "articleSection" (metaNameContent doc.metas "article:section") out
  let out := condInsert "articleTag" (metaNameContent doc.metas "article:tag") out
  let out := condInsert "publishedTime" (metaPropContent doc.metas "article:published_time") out
  let out := condInsert "modifiedTime" (metaPropContent doc.metas "article:modified_time") out
  let out := condInsert "dcTermsKeywords" (metaNameContent doc.metas "dcterms.keywords") out
  let out := condInsert "dcDescription" (metaNameContent doc.metas "dc.description") out
  let out := condInsert "dcSubject" (metaNameContent doc.metas "dc.subject") out
  let out := condInsert "dcTermsSubject" (metaNameContent doc.metas "dcterms.subject") out
  let out := condInsert "dcTermsAudience" (metaNameContent doc.metas "dcterms.audience") out
  let out := condInsert "dcType" (metaNameContent doc.metas "dc.type") out
  let out := condInsert "dcTermsType" (metaNameContent doc.metas "dcterms.type") out
  let out := condInsert "dcDate" (metaNameContent doc.metas "dc.date") out
  let out := condInsert "dcDateCreated" (metaNameContent doc.metas "dc.date.created") out
  condInsert "dcTermsCreated" (metaNameContent doc.metas "dcterms.created") out

/-- Embeds _extract_metadata (html-transformer/src/lib.rs lines 122-230):
the named catalog, then the generic meta pass. -/
def _extract_metadata (doc : DocModel) : MMap :=
  genericPass (catalogOut doc) doc.metas

theorem lookup_insertM_ne {k' k : String} (v : MValue) (out : MMap) (h : k' ≠ k) :
    List.lookup k' (insertM k v out) = List.lookup k' out := by
  simp [insertM, List.lookup, beq_false_of_ne h]

theorem lookup_condInsert_ne {k' k : String} (v : Option String) (out : MMap)
    (h : k' ≠ k) :
    List.lookup k' (condInsert k v out) = List.lookup k' out := by
  cases v with
  | none => rfl
  | some x => simp [condInsert, lookup_insertM_ne _ _ h]

theorem lookup_ogLocaleAltStep_ne {k' : String} (m : MetaTag) (out : MMap)
    (h : k' ≠ "ogLocaleAlternate") :
    List.lookup k' (ogLocaleAltStep out m) = List.lookup k' out := by
  unfold ogLocaleAltStep
  by_cases hp : (m.property == some "og:locale:alternate") = true
  · simp only [hp, if_true]
    cases m.content with
    | none => rfl
    | some content =>
      cases hl : List.lookup "ogLocaleAlternate" out with
      | none => simp [lookup_insertM_ne _ _ h]
      | some v =>
        cases v with
        | s x => rfl
        | arr x => simp [lookup_insertM_ne _ _ h]
  · simp [hp]

theorem lookup_ogLocaleAltFold_ne {k' : String} (out : MMap)
    (h : k' ≠ "ogLocaleAlternate") :
    ∀ metas : List MetaTag,
      List.lookup k' (metas.foldl ogLocaleAltStep out) = List.lookup k' out := by
  suffices hgen : ∀ (metas : List MetaTag) (acc : MMap),
      List.lookup k' (metas.foldl ogLocaleAltStep acc) = List.lookup k' acc by
    intro metas
    exact hgen metas out
  intro metas
  induction metas with
  | nil => intro acc; rfl
  | cons m metas ih =>
    intro acc
    rw [List.foldl_cons, ih, lookup_ogLocaleAltStep_ne _ _ h]

theorem lookup_description_catalogOut (doc : DocModel) :
    List.lookup "description" (catalogOut doc) = none := by
  unfold catalogOut
  repeat rw [lookup_condInsert_ne _ _ (by decide)]
  rw [lookup_ogLocaleAltFold_ne _ (by decide)]
  repeat rw [lookup_condInsert_ne _ _ (by decide)]
  rfl

theorem lookup_genericStep_ne (out : MMap) (m : MetaTag) (k : String)
    (h : metaKey m ≠ some k) :
    List.lookup k (genericStep out m) = List.lookup k out := by
  unfold genericStep
  cases hk : metaKey m with
  | none => simp [hk]
  | some name =>
    have hne : k ≠ name := fun he => h (by rw [hk, he])
    cases hc : m.content with
    | none => simp [hk, hc]
    | some content =>
      cases hl : List.lookup name out with
      | none => simp [hk, hc, hl, lookup_insertM_ne _ _ hne]
      | some v =>
        cases v with
        | s existing =>
          by_cases hd : name = "description"
          · subst hd
            simp [hk, hc, hl, lookup_insertM_ne _ _ hne]
          · by_cases ht : name = "title"
            · subst ht
              simp [hk, hc, hl, hd]
            · simp [hk, hc, hl, hd, ht, lookup_insertM_ne _ _ hne]
        | arr ex =>
          by_cases hd : name = "description"
          · subst hd
            simp [hk, hc, hl, lookup_insertM_ne _ _ hne]
          · simp [hk, hc, hl, hd, lookup_insertM_ne _ _ hne]

theorem lookup_genericPass_ne :
    ∀ (metas : List MetaTag) (out : MMap) (k : String),
      (∀ m ∈ metas, metaKey m ≠ some k) →
      List.lookup k (genericPass out metas) = List.lookup k out := by
  intro metas
  induction metas with
  | nil =>
    intro out k _
    rfl
  | cons m metas ih =>
    intro out k h
    have h1 := h m (List.mem_cons_self m metas)
    have h2 : ∀ m' ∈ metas, metaKey m' ≠ some k :=
      fun m' hm' => h m' (List.mem_cons_of_mem m hm')
    have hstep : genericPass out (m :: metas) = genericPass (genericStep out m) metas := by
      unfold genericPass
      rw [List.foldl_cons]
    rw [hstep, ih (genericStep out m) k h2, lookup_genericStep_ne _ _ _ h1]

/-- The C6 invariant: the description key never holds an array. -/
def descNotArr (out : MMap) : Prop :=
  ∀ xs, List.lookup "description" out ≠ some (MValue.arr xs)

theorem genericStep_descNotArr (out : MMap) (m : MetaTag) (hinv : descNotArr out) :
    descNotArr (genericStep out m) := by
  by_cases hk : metaKey m = some "description"
  · intro xs
    unfold genericStep
    cases hc : m.content with
    | none => simp [hk, hc, hinv xs]
    | some content =>
      cases hl : List.lookup "description" out with
      | none => simp [hk, hc, hl, insertM, List.lookup]
      | some v =>
        cases v with
        | s existing => simp [hk, hc, hl, insertM, List.lookup]
        | arr ex => exact absurd hl (hinv ex)
  · intro xs
    rw [lookup_genericStep_ne _ _ _ hk]
    exact hinv xs

theorem genericPass_descNotArr :
    ∀ (metas : List MetaTag) (out : MMap),
      descNotArr out → descNotArr (genericPass out metas) := by
  intro metas
  induction metas with
  | nil =>
    intro out h
    exact h
  | cons m metas ih =>
    intro out h
    have hstep : genericPass out (m :: metas) = genericPass (genericStep out m) metas := by
      unfold genericPass
      rw [List.foldl_cons]
    rw [hstep]
    exact ih _ (genericStep_descNotArr out m h)

/-- Concrete document from the spec's description example: two description
meta tags with contents A and B. -/
def descExampleDoc : DocModel where
  titleText := none
  iconHrefExact := none
  iconHrefAny := none
  htmlLang := none
  metas := [⟨some "description", none, none, some "A"⟩,
            ⟨some "description", none, none, some "B"⟩]

/-- C6: in _extract_metadata the description key always stays a single
string: a new description value colliding with an existing scalar yields
the comma-joined concatenation, a collision with an existing array
flattens back to a comma-joined scalar, the description key of a full
extraction is never an array, and the two-description example yields the
scalar string with contents joined by a comma and a space. -/
theorem description_scalar_spec :
    (∀ (out : MMap) (m : MetaTag) (existing content : String),
      List.lookup "description" out = some (MValue.s existing) →
      metaKey m = some "description" → m.content = some content →
      List.lookup "description" (genericStep out m) =
        some (MValue.s (existing ++ ", " ++ content))) ∧
    (∀ (out : MMap) (m : MetaTag) (existing_array : List MValue) (content : String),
      List.lookup "description" out = some (MValue.arr existing_array) →
      metaKey m = some "description" → m.content = some content →
      List.lookup "description" (genericStep out m) =
        some (MValue.s (chIntercalate ", "
          ((existing_array.filterMap (fun v =>
            match v with
            | MValue.s x => some x
            | _ => none)) ++ [content])))) ∧
    (∀ (doc : DocModel) (xs : List MValue),
      List.lookup "description" (_extract_metadata doc) ≠ some (MValue.arr xs)) ∧
    List.lookup "description" (_extract_metadata descExampleDoc) =
      some (MValue.s "A, B") := by
  refine ⟨?_, ?_, ?_, rfl⟩
  · intro out m existing content hl hk hc
    unfold genericStep
    simp [hk, hc, hl, insertM, List.lookup]
  · intro out m existing_array content hl hk hc
    unfold genericStep
    simp [hk, hc, hl, insertM, List.lookup]
  · intro doc xs
    have h0 : descNotArr (catalogOut doc) := by
      intro ys
      rw [lookup_description_catalogOut]
      simp
    exact genericPass_descNotArr doc.metas (catalogOut doc) h0 xs

theorem description_scalar_spec_witness :
    List.lookup "description" [("description", MValue.s "A")] = some (MValue.s "A") ∧
    metaKey ⟨some "description", none, none, some "B"⟩ = some "description" ∧
    MetaTag.content ⟨some "description", none, none, some "B"⟩ = some "B" ∧
    List.lookup "description" (genericStep [("description", MValue.s "A")]
      ⟨some "description", none, none, some "B"⟩) = some (MValue.s ("A" ++ ", " ++ "B")) :=
  ⟨rfl, rfl, rfl,
   description_scalar_spec.1 [("description", MValue.s "A")]
     ⟨some "description", none, none, some "B"⟩ "A" "B" rfl rfl rfl⟩

/-! ### C7: generic pass versus catalog keys -/

/-- Concrete document with the catalog-recognized property og:title plus an
additional meta tag bearing that same property string. -/
def ogTitleExampleDoc : DocModel where
  titleText := none
  iconHrefExact := none
  iconHrefAny := none
  htmlLang := none
  metas := [⟨none, some "og:title", none, some "X"⟩,
            ⟨none, some "og:title", none, some "Y"⟩]

/-- Counterexample to C7: on a document with two og:title metas, the
catalog-derived key ogTitle keeps its scalar value untouched while the
generic pass maintains a separate key spelled og:title, which is where
the merge (list promotion) happens. -/
theorem og_title_merge_counterexample :
    List.lookup "ogTitle" (_extract_metadata ogTitleExampleDoc) =
      some (MValue.s "X") ∧
    List.lookup "og:title" (_extract_metadata ogTitleExampleDoc) =
      some (MValue.arr [MValue.s "X", MValue.s "Y"]) :=
  ⟨rfl, rfl⟩

/-- The selector string and output key of every catalog meta entry of
_extract_metadata (html-transformer/src/lib.rs lines 144-184). -/
def catalogPairs : List (String × String) :=
  [("og:title", "ogTitle"), ("og:description", "ogDescription"),
   ("og:url", "ogUrl"), ("og:image", "ogImage"), ("og:audio", "ogAudio"),
   ("og:determiner", "ogDeterminer"), ("og:locale", "ogLocale"),
   ("og:locale:alternate", "ogLocaleAlternate"), ("og:site_name", "ogSiteName"),
   ("og:video", "ogVideo"), ("article:section", "articleSection"),
   ("article:tag", "articleTag"), ("article:published_time", "publishedTime"),
   ("article:modified_time", "modifiedTime"), ("dcterms.keywords", "dcTermsKeywords"),
   ("dc.description", "dcDescription"), ("dc.subject", "dcSubject"),
   ("dcterms.subject", "dcTermsSubject"), ("dcterms.audience", "dcTermsAudience"),
   ("dc.type", "dcType"), ("dcterms.type", "dcTermsType"), ("dc.date", "dcDate"),
   ("dc.date.created", "dcDateCreated"), ("dcterms.created", "dcTermsCreated")]

/-- C7 (amended): every catalog selector string differs from its camelCase
output key, and the generic pass writes only under the literal
name/property/itemprop string of a meta tag — any key no meta tag bears,
in particular every camelCase catalog key in a document whose meta tags
carry only raw selector strings, is left untouched by the generic pass.
Hence a meta tag sharing a catalog property string such as og:title never
merges into the catalog-derived key such as ogTitle; the generic pass
maintains a separate raw-spelled key instead. -/
theorem generic_pass_separate_keys :
    (∀ p ∈ catalogPairs, p.1 ≠ p.2) ∧
    (∀ (out : MMap) (m : MetaTag) (k : String), metaKey m ≠ some k →
      List.lookup k (genericStep out m) = List.lookup k out) ∧
    (∀ (out : MMap) (metas : List MetaTag) (k : String),
      (∀ m ∈ metas, metaKey m ≠ some k) →
      List.lookup k (genericPass out metas) = List.lookup k out) :=
  ⟨by decide, fun out m k h => lookup_genericStep_ne out m k h,
   fun out metas k h => lookup_genericPass_ne metas out k h⟩

theorem generic_pass_separate_keys_witness :
    (∀ m ∈ [(⟨none, some "og:title", none, some "Y"⟩ : MetaTag)],
      metaKey m ≠ some "ogTitle") ∧
    List.lookup "ogTitle"
      (genericPass [("ogTitle", MValue.s "X")] [⟨none, some "og:title", none, some "Y"⟩]) =
      List.lookup "ogTitle" [("ogTitle", MValue.s "X")] :=
  ⟨by decide,
   generic_pass_separate_keys.2.2 [("ogTitle", MValue.s "X")]
     [⟨none, some "og:title", none, some "Y"⟩] "ogTitle" (by decide)⟩

/-! ### Srcset resolution (html-transformer/src/lib.rs) -/

/-- Embeds ImageSource (html-transformer/src/lib.rs lines 327-331); the
f64 size is modelled as a rational. -/
structure ImageSource where
  url : String
  size : ℚ
  is_x : Bool
deriving DecidableEq, Repr

/-- Digits of a decimal numeral to its value; none when empty or when a
non-digit occurs. -/
def digitsToNat (l : List Char) : Option Nat :=
  if l.isEmpty then none
  else
    l.foldl (fun acc c =>
      match acc with
      | none => none
      | some n => if c.isDigit then some (n * 10 + (c.toNat - 48)) else none)
      (some 0)

/-- Model of the external Rust f64 parser on the plain decimal numerals the
srcset descriptors use (digits, optionally a point and digits); other f64
spellings are unmodelled. -/
def parseDec (s : String) : Option ℚ :=
  match chSplit '.' s with
  | [i] => (digitsToNat i.data).map (fun n => (n : ℚ))
  | [i, f] =>
    match digitsToNat i.data, digitsToNat f.data with
    | some a, some b => some ((a : ℚ) + (b : ℚ) / ((10 : ℚ) ^ f.data.length))
    | _, _ => none
  | _ => none

/-- Embeds the per-entry srcset candidate parser of _transform_html_inner
(html-transformer/src/lib.rs lines 428-451): split on spaces, use the
last token as the descriptor when it is a trailing x/w token of a
multi-token entry, defaulting to density 1x otherwise; drop the entry
when the numeric part does not parse. -/
def parseSrcsetEntry (x : String) : Option ImageSource :=
  let tok := chSplit ' ' (chTrim x)
  let last_token := tok.getLastD ""
  let valid : Bool := decide (1 < tok.length) && !(last_token == "") &&
    (chEndsWith last_token "x" || chEndsWith last_token "w")
  let lt := if valid then last_token else "1x"
  if lt == "" then none
  else
    match parseDec (chDropRight lt 1) with
    | some parsed_size =>
      some ⟨if valid then chIntercalate " " tok.dropLast else chIntercalate " " tok,
            parsed_size, chEndsWith lt "x"⟩
    | none => none

/-- The parsed candidate list of a srcset attribute (comma-separated). -/
def parseSrcset (srcset : String) : List ImageSource :=
  (chSplit ',' srcset).filterMap parseSrcsetEntry

/-- One step of the stable descending insertion modelling Vec::sort_by
with the b-compare-a (descending) comparator. -/
def insertDesc (a : ImageSource) : List ImageSource → List ImageSource
  | [] => [a]
  | b :: bs => if b.size < a.size then a :: b :: bs else b :: insertDesc a bs

/-- The stable descending-by-size sort of the candidate list. -/
def sortDesc (l : List ImageSource) : List ImageSource :=
  l.foldl (fun acc a => insertDesc a acc) []

/-- Embeds the candidate list after the density-1 synthesis step
(html-transformer/src/lib.rs lines 453-461): when every parsed candidate
is density-based, a density-1 candidate from the src attribute is
appended when src exists. -/
def srcsetCandidates (src : Option String) (srcset : String) : List ImageSource :=
  let sizes := parseSrcset srcset
  if sizes.all (fun c => c.is_x) then
    match src with
    | some s => sizes ++ [⟨s, 1, true⟩]
    | none => sizes
  else sizes

/-- Embeds the final src rewrite of the srcset stage
(html-transformer/src/lib.rs lines 463-467): sort descending by size and
take the first candidate's URL; none leaves src untouched. -/
def srcsetNewSrc (src : Option String) (srcset : String) : Option String :=
  ((sortDesc (srcsetCandidates src srcset)).head?).map (fun biggest => biggest.url)

theorem mem_insertDesc (a x : ImageSource) :
    ∀ l : List ImageSource, x ∈ insertDesc a l ↔ x = a ∨ x ∈ l := by
  intro l
  induction l with
  | nil => simp [insertDesc]
  | cons b bs ih =>
    by_cases hb : b.size < a.size
    · simp [insertDesc, hb]
    · simp only [insertDesc, hb, if_false, List.mem_cons, ih]
      tauto

/-- The head of a descending-sorted list bounds every member. -/
def headMax (l : List ImageSource) : Prop :=
  ∀ h, l.head? = some h → ∀ x ∈ l, x.size ≤ h.size

theorem insertDesc_headMax (a : ImageSource) (l : List ImageSource)
    (hl : headMax l) : headMax (insertDesc a l) := by
  cases l with
  | nil =>
    intro h hh x hx
    simp [insertDesc] at hh hx
    rw [hh] at hx
    rw [hx]
  | cons b bs =>
    by_cases hb : b.size < a.size
    · intro h hh x hx
      simp only [insertDesc, hb, if_true, List.head?_cons, Option.some.injEq] at hh
      subst hh
      simp only [insertDesc, hb, if_true, List.mem_cons] at hx
      rcases hx with hx | hx | hx
      · rw [hx]
      · rw [hx]
        exact le_of_lt hb
      · exact le_of_lt (lt_of_le_of_lt (hl b rfl x (List.mem_cons_of_mem b hx)) hb)
    · intro h hh x hx
      simp only [insertDesc, hb, if_false, List.head?_cons, Option.some.injEq] at hh
      subst hh
      simp only [insertDesc, hb, if_false, List.mem_cons, mem_insertDesc] at hx
      rcases hx with hx | hx | hx
      · rw [hx]
      · rw [hx]
        exact le_of_not_lt hb
      · exact hl b rfl x (List.mem_cons_of_mem b hx)

theorem mem_foldl_insertDesc (x : ImageSource) :
    ∀ (l acc : List ImageSource),
      x ∈ l.foldl (fun acc a => insertDesc a acc) acc ↔ x ∈ acc ∨ x ∈ l := by
  intro l
  induction l with
  | nil => simp
  | cons a l ih =>
    intro acc
    rw [List.foldl_cons, ih, mem_insertDesc]
    simp [List.mem_cons]
    tauto

theorem headMax_foldl :
    ∀ (l acc : List ImageSource), headMax acc →
      headMax (l.foldl (fun acc a => insertDesc a acc) acc) := by
  intro l
  induction l with
  | nil =>
    intro acc h
    exact h
  | cons a l ih =>
    intro acc h
    rw [List.foldl_cons]
    exact ih _ (insertDesc_headMax a acc h)

theorem mem_sortDesc (x : ImageSource) (l : List ImageSource) :
    x ∈ sortDesc l ↔ x ∈ l := by
  unfold sortDesc
  rw [mem_foldl_insertDesc]
  simp

theorem sortDesc_headMax (l : List ImageSource) : headMax (sortDesc l) := by
  unfold sortDesc
  apply headMax_foldl
  intro h hh
  cases hh

theorem head?_mem_self {α : Type} {l : List α} {b : α} (h : l.head? = some b) :
    b ∈ l := by
  cases l with
  | nil => cases h
  | cons a l =>
    rw [List.head?_cons, Option.some.injEq] at h
    rw [← h]
    exact List.mem_cons_self a l

/-- C8: srcset entries without a valid trailing x/w descriptor default to
density 1; entries with a valid descriptor whose numeric part does not
parse are dropped; when every parsed candidate is density-based a
density-1 candidate from src is added; the rewritten src is the URL of a
candidate of maximal numeric size; and the spec's two examples both pick
b.jpg. -/
theorem srcset_spec :
    (∀ x : String,
      (decide (1 < (chSplit ' ' (chTrim x)).length) &&
        !((chSplit ' ' (chTrim x)).getLastD "" == "") &&
        (chEndsWith ((chSplit ' ' (chTrim x)).getLastD "") "x" ||
         chEndsWith ((chSplit ' ' (chTrim x)).getLastD "") "w")) = false →
      parseSrcsetEntry x =
        some ⟨chIntercalate " " (chSplit ' ' (chTrim x)), 1, true⟩) ∧
    (∀ x : String,
      (decide (1 < (chSplit ' ' (chTrim x)).length) &&
        !((chSplit ' ' (chTrim x)).getLastD "" == "") &&
        (chEndsWith ((chSplit ' ' (chTrim x)).getLastD "") "x" ||
         chEndsWith ((chSplit ' ' (chTrim x)).getLastD "") "w")) = true →
      parseDec (chDropRight ((chSplit ' ' (chTrim x)).getLastD "") 1) = none →
      parseSrcsetEntry x = none) ∧
    (∀ (srcset : String) (src : String),
      (parseSrcset srcset).all (fun c => c.is_x) = true →
      (⟨src, 1, true⟩ : ImageSource) ∈ srcsetCandidates (some src) srcset) ∧
    (∀ (src : Option String) (srcset : String) (u : String),
      srcsetNewSrc src srcset = some u →
      ∃ c, c ∈ srcsetCandidates src srcset ∧ c.url = u ∧
        ∀ c' ∈ srcsetCandidates src srcset, c'.size ≤ c.size) ∧
    srcsetNewSrc none "a.jpg 1x, b.jpg 2x" = some "b.jpg" ∧
    srcsetNewSrc none "a.jpg 300w, b.jpg 600w" = some "b.jpg" := by
  refine ⟨?_, ?_, ?_, ?_, by decide, by decide⟩
  · intro x hv
    unfold parseSrcsetEntry
    simp only [hv]
    rfl
  · intro x hv hp
    unfold parseSrcsetEntry
    simp at hv
    rw [List.getLastD_eq_getLast?] at hp
    simp [hv, hp]
  · intro srcset src hall
    unfold srcsetCandidates
    simp [hall]
  · intro src srcset u hu
    unfold srcsetNewSrc at hu
    cases hh : (sortDesc (srcsetCandidates src srcset)).head? with
    | none =>
      rw [hh] at hu
      cases hu
    | some b =>
      rw [hh] at hu
      have hub : b.url = u := by simpa using hu
      have hbmem : b ∈ srcsetCandidates src srcset :=
        (mem_sortDesc b _).mp (head?_mem_self hh)
      refine ⟨b, hbmem, hub, ?_⟩
      intro c' hc'
      exact sortDesc_headMax _ b hh c' ((mem_sortDesc c' _).mpr hc')

theorem srcset_spec_witness :
    (decide (1 < (chSplit ' ' (chTrim "a.jpg")).length) &&
      !((chSplit ' ' (chTrim "a.jpg")).getLastD "" == "") &&
      (chEndsWith ((chSplit ' ' (chTrim "a.jpg")).getLastD "") "x" ||
       chEndsWith ((chSplit ' ' (chTrim "a.jpg")).getLastD "") "w")) = false ∧
    parseSrcsetEntry "a.jpg" =
      some ⟨chIntercalate " " (chSplit ' ' (chTrim "a.jpg")), 1, true⟩ ∧
    srcsetNewSrc (some "c.jpg") "a.jpg 1x, b.jpg 2x" = some "b.jpg" ∧
    (∃ c, c ∈ srcsetCandidates (some "c.jpg") "a.jpg 1x, b.jpg 2x" ∧
      c.url = "b.jpg" ∧
      ∀ c' ∈ srcsetCandidates (some "c.jpg") "a.jpg 1x, b.jpg 2x",
        c'.size ≤ c.size) :=
  ⟨by decide, srcset_spec.1 "a.jpg" (by decide), by decide,
   srcset_spec.2.2.2.1 (some "c.jpg") "a.jpg 1x, b.jpg 2x" "b.jpg" (by decide)⟩

/-! ### OMCE mode extraction (html-transformer/src/lib.rs line 376) -/

/-- Embeds the per-signature mode extraction of the OMCE stage of
_transform_html_inner (html-transformer/src/lib.rs line 376):
x.split(':').nth(1).unwrap(); the panic of the unwrap on a signature
without a second colon-delimited segment is modelled as none. -/
def omceModeOf (s : String) : Option String :=
  ((splitChar ':' s.data).get? 1).map (fun l => String.mk l)

/-- The mode extraction mapped over the whole omce_signatures list, as the
modes HashSet construction performs it; a panic on any signature aborts
the whole call (none). -/
def omceModes : List String → Option (List String)
  | [] => some []
  | s :: ss =>
    match omceModeOf s with
    | none => none
    | some m => (omceModes ss).map (fun ms => m :: ms)

theorem splitChar_ne_nil (sep : Char) : ∀ l : List Char, splitChar sep l ≠ [] := by
  intro l
  induction l with
  | nil => simp [splitChar]
  | cons c cs ih =>
    by_cases hc : c = sep
    · simp [splitChar, hc]
    · simp only [splitChar, hc, if_false]
      cases hs : splitChar sep cs with
      | nil => exact absurd hs ih
      | cons h t => simp

theorem splitChar_two_le (sep : Char) :
    ∀ l : List Char, 2 ≤ (splitChar sep l).length ↔ sep ∈ l := by
  intro l
  induction l with
  | nil => simp [splitChar]
  | cons c cs ih =>
    by_cases hc : c = sep
    · subst hc
      have hsplit : splitChar c (c :: cs) = [] :: splitChar c cs := by
        simp [splitChar]
      rw [hsplit]
      have h1 : 1 ≤ (splitChar c cs).length := by
        cases hs : splitChar c cs with
        | nil => exact absurd hs (splitChar_ne_nil c cs)
        | cons h t => simp
      simp only [List.length_cons, List.mem_cons, true_or, iff_true]
      omega
    · simp only [splitChar, hc, if_false]
      cases hs : splitChar sep cs with
      | nil => exact absurd hs (splitChar_ne_nil sep cs)
      | cons h t =>
        rw [hs] at ih
        simp only [List.length_cons] at ih ⊢
        rw [List.mem_cons]
        constructor
        · intro hlen
          exact Or.inr (ih.mp hlen)
        · rintro (he | hm)
          · exact absurd he.symm hc
          · exact ih.mpr hm

theorem omceModeOf_isSome (s : String) :
    (omceModeOf s).isSome = true ↔ ':' ∈ s.data := by
  have h1 : (omceModeOf s).isSome = true ↔ 1 < (splitChar ':' s.data).length := by
    unfold omceModeOf
    cases hg : (splitChar ':' s.data).get? 1 with
    | none =>
      have h := List.get?_eq_none.mp hg
      simp only [Option.map_none', Option.isSome_none, Bool.false_eq_true, false_iff]
      omega
    | some v =>
      have h : 1 < (splitChar ':' s.data).length := by
        by_contra hlt
        rw [List.get?_eq_none.mpr (by omega)] at hg
        cases hg
      simp only [Option.map_some', Option.isSome_some, true_iff]
      exact h
  rw [h1, ← splitChar_two_le ':' s.data]
  omega

theorem omceModes_isSome :
    ∀ sigs : List String,
      (omceModes sigs).isSome = true ↔ ∀ s ∈ sigs, ':' ∈ s.data := by
  intro sigs
  induction sigs with
  | nil => simp [omceModes]
  | cons s ss ih =>
    unfold omceModes
    cases ho : omceModeOf s with
    | none =>
      have hs : ¬ ':' ∈ s.data := by
        intro hc
        have := (omceModeOf_isSome s).mpr hc
        rw [ho] at this
        cases this
      simp [hs]
    | some m =>
      have hs : ':' ∈ s.data := by
        have : (omceModeOf s).isSome = true := by rw [ho]; rfl
        exact (omceModeOf_isSome s).mp this
      cases hm : omceModes ss with
      | none =>
        rw [hm] at ih
        simp only [Option.map_none', Option.isSome_none, Bool.false_eq_true, false_iff]
        intro hall
        have := ih.mpr (fun s' hs' => hall s' (List.mem_cons_of_mem s hs'))
        cases this
      | some ms =>
        rw [hm] at ih
        simp only [Option.map_some', Option.isSome_some, true_iff]
        intro s' hs'
        rcases List.mem_cons.mp hs' with he | hm'
        · exact he ▸ hs
        · exact ih.mp rfl s' hm'

/-- C10: mapping the OMCE mode extraction over a signature list is defined
(no panic) exactly when every signature contains a colon; the signature
abc panics (models the unwrap of split-colon nth 1 returning none), so a
list holding it aborts, while a well-formed signature yields its second
colon-delimited segment. -/
theorem omce_mode_extraction_total_iff :
    (∀ sigs : List String,
      (omceModes sigs).isSome = true ↔ ∀ s ∈ sigs, ':' ∈ s.data) ∧
    omceModeOf "abc" = none ∧
    omceModes ["p:q:r", "abc"] = none ∧
    omceModes ["p:q:r"] = some ["q"] :=
  ⟨omceModes_isSome, by decide, by decide, by decide⟩

theorem omce_mode_extraction_total_iff_witness :
    (omceModes ["p:q:r"]).isSome = true ∧ ∀ s ∈ ["p:q:r"], ':' ∈ s.data :=
  ⟨by decide, (omce_mode_extraction_total_iff.1 ["p:q:r"]).mp (by decide)⟩

end Firecrawl
